import Mathlib

set_option linter.dupNamespace false

/-!
# String searching: brute force and Horspool

A shallow embedding of `strings/brute_force_string_searching.cpp` and
`strings/horspool.cpp`.

* A `std::string` is a `List Char`; only equality of characters is used.
* `size_t` is a natural number below `2 ^ 64`; every `size_t` operation of the
  source is written with its reduction modulo `2 ^ 64`.
* `int` is a 32-bit two's complement integer; the conversion performed by
  `return i;` in `brute_force` is `std.to_int`.
* `std::unordered_map<char, size_t>` is a finite partial function, here
  `Char → Option Nat`.
* The `while` loop of `horspool` carries an iteration budget; the counted `for`
  loops (unit increment, fixed bound, body does not touch the counter) run over
  `List.range bound`.
-/

namespace std

/-- Number of values of `size_t` (64-bit). -/
def SIZE_MOD : Nat := 2 ^ 64

/-- Upper bound of `std::string::size()`: no object is larger than
`PTRDIFF_MAX` bytes. -/
def max_size : Nat := 2 ^ 63 - 1

/-- Addition of `size_t` values. -/
def size_add (a b : Nat) : Nat := (a + b) % SIZE_MOD

/-- Subtraction of `size_t` values `a b < 2 ^ 64`. -/
def size_sub (a b : Nat) : Nat := (a + SIZE_MOD - b) % SIZE_MOD

/-- Conversion of a `size_t` to `int` (32-bit, two's complement). -/
def to_int (a : Nat) : Int :=
  if a % 2 ^ 32 < 2 ^ 31 then ((a % 2 ^ 32 : Nat) : Int)
  else ((a % 2 ^ 32 : Nat) : Int) - 2 ^ 32

/-- The outcome of running a function of the source. -/
inductive Result (α : Type) where
  | value (a : α) : Result α
  | out_of_range : Result α
  | out_of_fuel : Result α
  deriving DecidableEq, Repr

/-- The call `s.substr(pos, len)`: throws `std::out_of_range` when
`pos > s.size()`, otherwise the characters `[pos, min(pos + len, size))`. -/
def substr (s : List Char) (pos len : Nat) : Option (List Char) :=
  if pos > s.length then none else some ((s.drop pos).take len)

/-- The read `s[i]` (the terminating null character at `i = s.size()`). -/
def index (s : List Char) (i : Nat) : Char := s.getD i (Char.ofNat 0)

/-- A `std::unordered_map<char, size_t>`. -/
abbrev unordered_map : Type := Char → Option Nat

/-- The default-constructed (empty) map. -/
def unordered_map.empty : unordered_map := fun _ => none

/-- The call `m.count(k)`: 1 when `k` is a key, 0 otherwise. -/
def unordered_map.count (m : unordered_map) (k : Char) : Nat :=
  if (m k).isSome then 1 else 0

/-- The assignment `m[k] = v`: inserts or overwrites. -/
def unordered_map.assign (m : unordered_map) (k : Char) (v : Nat) : unordered_map :=
  fun c => if c = k then some v else m c

/-- The call `m.emplace(k, v)`: inserts only when `k` is not yet a key. -/
def unordered_map.emplace (m : unordered_map) (k : Char) (v : Nat) : unordered_map :=
  if (m k).isSome then m else fun c => if c = k then some v else m c

/-- The read `m[k]` (a missing key reads as the value-initialised 0). -/
def unordered_map.get (m : unordered_map) (k : Char) : Nat := (m k).getD 0

end std

namespace string_search

open std

/-- The body of the `for` loop of `brute_force`, over the remaining values of
`i`: the first `i` whose window equals `pattern` is returned as an `int`. -/
def brute_force_loop (text pattern : List Char) (pattern_length : Nat) :
    List Nat → Result Int
  | [] => Result.value (-1)
  | i :: rest =>
    match substr text i pattern_length with
    | none => Result.out_of_range
    | some w =>
      if w = pattern then Result.value (to_int i)
      else brute_force_loop text pattern pattern_length rest

/-- The function `string_search::brute_force`. -/
def brute_force (text pattern : List Char) : Result Int :=
  let pattern_length := pattern.length
  let text_length := text.length
  if pattern_length ≤ text_length then
    brute_force_loop text pattern pattern_length
      (List.range (size_add (size_sub text_length pattern_length) 1))
  else Result.value (-1)

end string_search

namespace strings.horspool

open std

/-- The body of the `for` loop of `findShiftTable` at index `i`. -/
def findShiftTable_body (prototype : List Char) (last_index : Nat)
    (shiftTable : unordered_map) (i : Nat) : unordered_map :=
  if shiftTable.count (index prototype i) ≠ 0 then
    if i ≠ last_index then
      shiftTable.assign (index prototype i) (size_sub last_index i)
    else shiftTable
  else
    shiftTable.emplace (index prototype i)
      (if i ≠ last_index then size_sub last_index i else size_add last_index 1)

/-- The function `strings::horspool::findShiftTable`. -/
def findShiftTable (prototype : List Char) : unordered_map :=
  let last_index := size_sub prototype.length 1
  (List.range (size_add last_index 1)).foldl
    (findShiftTable_body prototype last_index) unordered_map.empty

/-- The shift of the statement `i += shiftTable.count(text[i]) ?
shiftTable[text[i]] : prototype_size`. -/
def shift (text : List Char) (shiftTable : unordered_map) (prototype_size i : Nat) : Nat :=
  if shiftTable.count (index text i) ≠ 0 then shiftTable.get (index text i)
  else prototype_size

/-- The `while` loop of `horspool` from cursor `i`, with an iteration budget. -/
def horspool_loop (text prototype : List Char) (shiftTable : unordered_map)
    (prototype_size : Nat) : Nat → Nat → Result Bool
  | 0, _ => Result.out_of_fuel
  | fuel + 1, i =>
    if i < text.length then
      match substr text (size_add (size_sub i prototype_size) 1) prototype_size with
      | none => Result.out_of_range
      | some w =>
        if w = prototype then Result.value true
        else horspool_loop text prototype shiftTable prototype_size fuel
          (size_add i (shift text shiftTable prototype_size i))
    else Result.value false

/-- The function `strings::horspool::horspool`; the budget `text.size() + 1`
covers every run (`horspool_loop_fuel`). -/
def horspool (text prototype : List Char) : Result Bool :=
  let shiftTable := findShiftTable prototype
  let prototype_size := prototype.length
  horspool_loop text prototype shiftTable prototype_size (text.length + 1)
    (size_sub prototype_size 1)

/-- The `while` loop of `horspool` from cursor `i`, instrumented: the result of
`horspool_loop` together with the cursors of the iterations it runs, in
order (one entry for each time the loop condition holds and the body is
entered). -/
def horspool_trace (text prototype : List Char) (shiftTable : unordered_map)
    (prototype_size : Nat) : Nat → Nat → Result Bool × List Nat
  | 0, _ => (Result.out_of_fuel, [])
  | fuel + 1, i =>
    if i < text.length then
      match substr text (size_add (size_sub i prototype_size) 1) prototype_size with
      | none => (Result.out_of_range, [i])
      | some w =>
        if w = prototype then (Result.value true, [i])
        else
          ((horspool_trace text prototype shiftTable prototype_size fuel
              (size_add i (shift text shiftTable prototype_size i))).1,
            i :: (horspool_trace text prototype shiftTable prototype_size fuel
              (size_add i (shift text shiftTable prototype_size i))).2)
    else (Result.value false, [])

end strings.horspool

/-- The pattern `P` occurs in the text `T` at index `i`: the substring of `T`
at `[i, i + |P|)` equals `P`. -/
def OccursAt (T P : List Char) (i : Nat) : Prop :=
  i + P.length ≤ T.length ∧ (T.drop i).take P.length = P

instance (T P : List Char) (i : Nat) : Decidable (OccursAt T P i) := by
  unfold OccursAt; infer_instance

/-- The largest index `j < k` with `P[j] = c`, if there is one. -/
def lastIndexBefore (P : List Char) : Nat → Char → Option Nat
  | 0, _ => none
  | k + 1, c => if std.index P k = c then some k else lastIndexBefore P k c

/-! ## Arithmetic of `size_t` -/

namespace std

theorem size_sub_of_le {a b : Nat} (hb : b ≤ a) (ha : a < 2 ^ 64) : size_sub a b = a - b := by
  unfold size_sub SIZE_MOD
  have h : a + 2 ^ 64 - b = (a - b) + 2 ^ 64 := by omega
  rw [h, Nat.add_mod_right, Nat.mod_eq_of_lt (by omega)]

theorem size_sub_zero_one : size_sub 0 1 = 2 ^ 64 - 1 := by
  unfold size_sub SIZE_MOD; norm_num

theorem size_add_of_lt {a b : Nat} (h : a + b < 2 ^ 64) : size_add a b = a + b := by
  unfold size_add SIZE_MOD
  exact Nat.mod_eq_of_lt h

theorem size_add_wrap : size_add (2 ^ 64 - 1) 1 = 0 := by
  unfold size_add SIZE_MOD; norm_num

theorem index_eq_iff {s : List Char} {i : Nat} (hi : i < s.length) (c : Char) :
    index s i = c ↔ s[i]? = some c := by
  unfold index
  rw [List.getD_eq_getElem?_getD, List.getElem?_eq_getElem hi]
  simp

theorem index_mem {s : List Char} {i : Nat} (hi : i < s.length) : index s i ∈ s := by
  have h := (index_eq_iff hi (index s i)).1 rfl
  exact List.getElem?_mem h

end std

/-! ## The last index of a character before a position -/

theorem lastIndexBefore_some {P : List Char} {k j : Nat} {c : Char}
    (h : lastIndexBefore P k c = some j) :
    j < k ∧ std.index P j = c ∧ ∀ j2, j < j2 → j2 < k → std.index P j2 ≠ c := by
  induction k with
  | zero => simp [lastIndexBefore] at h
  | succ k ih =>
    unfold lastIndexBefore at h
    by_cases hk : std.index P k = c
    · rw [if_pos hk] at h
      have hj : k = j := Option.some.inj h
      subst hj
      exact ⟨Nat.lt_succ_self _, hk, fun j2 h1 h2 => absurd h2 (by omega)⟩
    · rw [if_neg hk] at h
      obtain ⟨h1, h2, h3⟩ := ih h
      refine ⟨by omega, h2, fun j2 hj2 hlt => ?_⟩
      by_cases hjk : j2 = k
      · subst hjk; exact hk
      · exact h3 j2 hj2 (by omega)

theorem lastIndexBefore_none {P : List Char} {k : Nat} {c : Char}
    (h : lastIndexBefore P k c = none) : ∀ j, j < k → std.index P j ≠ c := by
  induction k with
  | zero => intro j hj; omega
  | succ k ih =>
    unfold lastIndexBefore at h
    by_cases hk : std.index P k = c
    · rw [if_pos hk] at h; cases h
    · rw [if_neg hk] at h
      intro j hj
      by_cases hjk : j = k
      · subst hjk; exact hk
      · exact ih h j (by omega)

theorem lastIndexBefore_of_last {P : List Char} {k j : Nat} {c : Char}
    (hj : j < k) (hc : std.index P j = c)
    (hmax : ∀ j2, j < j2 → j2 < k → std.index P j2 ≠ c) :
    lastIndexBefore P k c = some j := by
  cases h : lastIndexBefore P k c with
  | none => exact absurd hc (lastIndexBefore_none h j hj)
  | some j1 =>
    obtain ⟨h1, h2, h3⟩ := lastIndexBefore_some h
    rcases Nat.lt_trichotomy j1 j with hlt | heq | hgt
    · exact absurd hc (h3 j hlt hj)
    · rw [heq]
    · exact absurd h2 (hmax j1 hgt h1)

/-! ## The shift table -/

namespace strings.horspool

open std

/-- The table after the iterations `i = 0, ..., k - 1`, none of which is the
last one. -/
theorem findShiftTable_prefix (P : List Char) (L : Nat) (hL : L < 2 ^ 64) (k : Nat)
    (hk : k ≤ L) :
    (List.range k).foldl (findShiftTable_body P L) unordered_map.empty
      = fun c => (lastIndexBefore P k c).map (fun j => L - j) := by
  induction k with
  | zero => funext c; simp [lastIndexBefore, unordered_map.empty]
  | succ k ih =>
    have hne : k ≠ L := by omega
    rw [List.range_succ, List.foldl_append, ih (by omega)]
    funext c
    have hsub : size_sub L k = L - k := size_sub_of_le (by omega) hL
    simp only [List.foldl_cons, List.foldl_nil, findShiftTable_body, unordered_map.count,
      unordered_map.assign, unordered_map.emplace, hsub, lastIndexBefore]
    cases hprev : lastIndexBefore P k (index P k) with
    | none =>
      by_cases hc : index P k = c
      · subst hc; simp [hprev, hne, unordered_map.assign]
      · have hc2 : ¬ c = index P k := fun h => hc h.symm
        simp [hprev, hne, hc, hc2, unordered_map.assign]
    | some j =>
      by_cases hc : index P k = c
      · subst hc; simp [hprev, hne, unordered_map.assign]
      · have hc2 : ¬ c = index P k := fun h => hc h.symm
        simp [hprev, hne, hc, hc2, unordered_map.assign]

/-- The shift table of a non-empty pattern, entry by entry. -/
theorem findShiftTable_apply (P : List Char) (hne : P ≠ []) (hlen : P.length ≤ max_size)
    (c : Char) :
    findShiftTable P c =
      match lastIndexBefore P (P.length - 1) c with
      | some j => some (P.length - 1 - j)
      | none => if c = index P (P.length - 1) then some P.length else none := by
  have hpos : 0 < P.length := List.length_pos.2 hne
  have hmax : P.length < 2 ^ 63 := by unfold max_size at hlen; omega
  have hL : size_sub P.length 1 = P.length - 1 := size_sub_of_le hpos (by omega)
  have hB : size_add (P.length - 1) 1 = (P.length - 1) + 1 := size_add_of_lt (by omega)
  unfold findShiftTable
  simp only [hL, hB]
  rw [List.range_succ, List.foldl_append,
    findShiftTable_prefix P (P.length - 1) (by omega) (P.length - 1) le_rfl]
  have hB2 : size_add (P.length - 1) 1 = P.length := by rw [hB]; omega
  simp only [List.foldl_cons, List.foldl_nil, findShiftTable_body, unordered_map.count,
    unordered_map.assign, unordered_map.emplace, hB2]
  cases hprev : lastIndexBefore P (P.length - 1) (index P (P.length - 1)) with
  | none =>
    by_cases hc : c = index P (P.length - 1)
    · subst hc; simp [hprev]
    · simp [hprev, hc]
      cases lastIndexBefore P (P.length - 1) c <;> rfl
  | some j =>
    by_cases hc : c = index P (P.length - 1)
    · subst hc; simp [hprev]
    · simp [hprev]
      cases lastIndexBefore P (P.length - 1) c <;> simp [hc]

/-- The table of the empty pattern: the construction loop runs zero times. -/
theorem findShiftTable_nil_eq : findShiftTable [] = unordered_map.empty := by
  unfold findShiftTable
  simp only [List.length_nil, size_sub_zero_one, size_add_wrap, List.range_zero, List.foldl_nil]

end strings.horspool

namespace strings.horspool

open std

/-- A character occurring before the final position is mapped to the distance
from its last such occurrence to the final position. -/
theorem findShiftTable_of_last (P : List Char) (hne : P ≠ []) (hlen : P.length ≤ max_size)
    (c : Char) (j : Nat) (hj : j < P.length - 1) (hc : index P j = c)
    (hmax : ∀ j2, j < j2 → j2 < P.length - 1 → index P j2 ≠ c) :
    findShiftTable P c = some (P.length - 1 - j) := by
  rw [findShiftTable_apply P hne hlen c, lastIndexBefore_of_last hj hc hmax]

/-- A final character that does not occur earlier is mapped to the length. -/
theorem findShiftTable_of_final (P : List Char) (hne : P ≠ []) (hlen : P.length ≤ max_size)
    (hfresh : ∀ j, j < P.length - 1 → index P j ≠ index P (P.length - 1)) :
    findShiftTable P (index P (P.length - 1)) = some P.length := by
  rw [findShiftTable_apply P hne hlen]
  cases h : lastIndexBefore P (P.length - 1) (index P (P.length - 1)) with
  | none => simp
  | some j =>
    obtain ⟨h1, h2, _⟩ := lastIndexBefore_some h
    exact absurd h2 (hfresh j h1)

/-- The keys of the table of a non-empty pattern are its characters. -/
theorem findShiftTable_isSome_iff (P : List Char) (hne : P ≠ []) (hlen : P.length ≤ max_size)
    (c : Char) : (findShiftTable P c).isSome = true ↔ c ∈ P := by
  have hpos : 0 < P.length := List.length_pos.2 hne
  rw [findShiftTable_apply P hne hlen c]
  constructor
  · intro h
    cases hl : lastIndexBefore P (P.length - 1) c with
    | none =>
      rw [hl] at h
      by_cases hc : c = index P (P.length - 1)
      · rw [hc]; exact index_mem (by omega)
      · simp [hc] at h
    | some j =>
      obtain ⟨h1, h2, _⟩ := lastIndexBefore_some hl
      rw [← h2]; exact index_mem (by omega)
  · intro h
    obtain ⟨i, hi, hget⟩ := List.getElem_of_mem h
    have hidx : index P i = c := (index_eq_iff hi c).2 (by rw [List.getElem?_eq_getElem hi, hget])
    cases hl : lastIndexBefore P (P.length - 1) c with
    | some j => simp
    | none =>
      have hi2 : ¬ i < P.length - 1 := fun hlt => lastIndexBefore_none hl i hlt hidx
      have hi3 : i = P.length - 1 := by omega
      rw [hi3] at hidx
      simp [hidx]

/-- Every stored shift is at least 1 and at most the pattern length. -/
theorem findShiftTable_bounds (P : List Char) (hne : P ≠ []) (hlen : P.length ≤ max_size)
    (c : Char) (v : Nat) (hv : findShiftTable P c = some v) : 1 ≤ v ∧ v ≤ P.length := by
  have hpos : 0 < P.length := List.length_pos.2 hne
  rw [findShiftTable_apply P hne hlen c] at hv
  cases hl : lastIndexBefore P (P.length - 1) c with
  | none =>
    rw [hl] at hv
    by_cases hc : c = index P (P.length - 1)
    · simp [hc] at hv; omega
    · simp [hc] at hv
  | some j =>
    rw [hl] at hv
    obtain ⟨h1, _, _⟩ := lastIndexBefore_some hl
    simp at hv
    omega

/-- The shift applied by the scan is at least 1 and at most the pattern
length. -/
theorem shift_bounds (T P : List Char) (hne : P ≠ []) (hlen : P.length ≤ max_size) (i : Nat) :
    1 ≤ shift T (findShiftTable P) P.length i
      ∧ shift T (findShiftTable P) P.length i ≤ P.length := by
  have hpos : 0 < P.length := List.length_pos.2 hne
  unfold shift unordered_map.count unordered_map.get
  cases h : findShiftTable P (index T i) with
  | none => simp; omega
  | some v =>
    have := findShiftTable_bounds P hne hlen _ v h
    simp; omega

/-- The shift applied by the scan does not pass an occurrence of the text
character before the final position of the pattern. -/
theorem shift_le_of_index (T P : List Char) (hne : P ≠ []) (hlen : P.length ≤ max_size)
    (i j : Nat) (hj : j < P.length - 1) (hc : index P j = index T i) :
    shift T (findShiftTable P) P.length i ≤ P.length - 1 - j := by
  unfold shift unordered_map.count unordered_map.get
  rw [findShiftTable_apply P hne hlen (index T i)]
  cases hl : lastIndexBefore P (P.length - 1) (index T i) with
  | none => exact absurd hc (lastIndexBefore_none hl j hj)
  | some j1 =>
    obtain ⟨h1, h2, h3⟩ := lastIndexBefore_some hl
    have hle : j ≤ j1 := by
      by_contra hcon
      exact h3 j (by omega) hj hc
    simp
    omega

end strings.horspool

/-! ## Occurrences -/

theorem OccursAt.index_eq {T P : List Char} {s : Nat} (h : OccursAt T P s) (k : Nat)
    (hk : k < P.length) : std.index T (s + k) = std.index P k := by
  obtain ⟨hlen, heq⟩ := h
  have h1 : P[k]? = T[s + k]? := by
    conv_lhs => rw [← heq]
    rw [List.getElem?_take_of_lt hk, List.getElem?_drop]
  unfold std.index
  rw [List.getD_eq_getElem?_getD, List.getD_eq_getElem?_getD, h1]

theorem occursAt_iff_append (T P : List Char) (s : Nat) :
    OccursAt T P s ↔ ∃ pre suf, pre.length = s ∧ T = pre ++ P ++ suf := by
  constructor
  · rintro ⟨hlen, heq⟩
    refine ⟨T.take s, (T.drop s).drop P.length, ?_, ?_⟩
    · rw [List.length_take]; omega
    · have h : T = T.take s ++ ((T.drop s).take P.length ++ (T.drop s).drop P.length) := by
        rw [List.take_append_drop, List.take_append_drop]
      rw [heq] at h
      rw [List.append_assoc]
      exact h
  · rintro ⟨pre, suf, hpre, hT⟩
    subst hT
    subst hpre
    refine ⟨by simp, ?_⟩
    simp

/-! ## The scan loop of `horspool` -/

namespace strings.horspool

open std

/-- The window start `i - prototype_size + 1` does not wrap once the cursor
is at least `prototype_size - 1`. -/
theorem window_start (i m : Nat) (hm : 0 < m) (hi : m - 1 ≤ i) (hi2 : i < 2 ^ 64)
    (hm2 : m < 2 ^ 64) : size_add (size_sub i m) 1 = i + 1 - m := by
  unfold size_add size_sub SIZE_MOD
  omega

/-- The shift applied at cursor `i` passes no occurrence: one that ends at or
after `i`, other than at `i` itself, ends at or after `i + shift`. -/
theorem shift_safe (T P : List Char) (hne : P ≠ []) (hP : P.length ≤ max_size) (i s : Nat)
    (hs : OccursAt T P s) (hi : i < s + (P.length - 1)) :
    i + shift T (findShiftTable P) P.length i ≤ s + (P.length - 1) := by
  have hsb := shift_bounds T P hne hP i
  by_contra hcon
  have hk : i - s < P.length - 1 := by omega
  have hidx := hs.index_eq (i - s) (by omega)
  have hsi : s + (i - s) = i := by omega
  rw [hsi] at hidx
  have := shift_le_of_index T P hne hP i (i - s) hk hidx.symm
  omega

/-- The scan from a cursor before which no occurrence ends, with a budget
that covers the rest of the text, decides whether the pattern occurs. -/
theorem horspool_loop_spec (T P : List Char) (hne : P ≠ []) (hT : T.length ≤ max_size)
    (hP : P.length ≤ max_size) :
    ∀ (f i : Nat), P.length - 1 ≤ i → T.length ≤ i + f →
      (∀ s, OccursAt T P s → i ≤ s + (P.length - 1)) →
      ∃ b, horspool_loop T P (findShiftTable P) P.length (f + 1) i = Result.value b
        ∧ (b = true ↔ ∃ s, OccursAt T P s) := by
  have hpos : 0 < P.length := List.length_pos.2 hne
  have hT2 : T.length < 2 ^ 63 := by unfold max_size at hT; omega
  have hP2 : P.length < 2 ^ 63 := by unfold max_size at hP; omega
  have hexit : ∀ (f i : Nat), ¬ i < T.length →
      (∀ s, OccursAt T P s → i ≤ s + (P.length - 1)) →
      ∃ b, horspool_loop T P (findShiftTable P) P.length (f + 1) i = Result.value b
        ∧ (b = true ↔ ∃ s, OccursAt T P s) := by
    intro f i hlt hinv
    refine ⟨false, ?_, ?_⟩
    · rw [horspool_loop, if_neg hlt]
    · constructor
      · intro h; cases h
      · rintro ⟨s, hs⟩
        have h1 := hinv s hs
        have h2 := hs.1
        omega
  intro f
  induction f with
  | zero =>
    intro i _ hfuel hinv
    exact hexit 0 i (by omega) hinv
  | succ f ih =>
    intro i hi hfuel hinv
    by_cases hlt : i < T.length
    · have hstart := window_start i P.length hpos hi (by omega) (by omega)
      have hsub : substr T (i + 1 - P.length) P.length
          = some ((T.drop (i + 1 - P.length)).take P.length) := by
        unfold substr
        rw [if_neg (by omega)]
      by_cases hw : (T.drop (i + 1 - P.length)).take P.length = P
      · refine ⟨true, ?_, ?_⟩
        · rw [horspool_loop, if_pos hlt, hstart, hsub]
          simp only [hw, if_true]
        · simp only [true_iff]
          exact ⟨i + 1 - P.length, by omega, hw⟩
      · have hsb := shift_bounds T P hne hP i
        have hadd : size_add i (shift T (findShiftTable P) P.length i)
            = i + shift T (findShiftTable P) P.length i := size_add_of_lt (by omega)
        have hinv2 : ∀ s, OccursAt T P s →
            i + shift T (findShiftTable P) P.length i ≤ s + (P.length - 1) := by
          intro s hs
          have h1 := hinv s hs
          by_cases heq : i = s + (P.length - 1)
          · exfalso
            apply hw
            have hs2 : i + 1 - P.length = s := by omega
            rw [hs2]
            exact hs.2
          · exact shift_safe T P hne hP i s hs (by omega)
        obtain ⟨b, hb1, hb2⟩ := ih (i + shift T (findShiftTable P) P.length i)
          (by omega) (by omega) hinv2
        refine ⟨b, ?_, hb2⟩
        rw [horspool_loop, if_pos hlt, hstart, hsub]
        simp only [hw, if_false, hadd]
        exact hb1
    · exact hexit (f + 1) i hlt hinv

/-- The scan of `horspool` on a non-empty pattern returns a value, which is
`true` exactly when the pattern occurs in the text; this holds for every
budget of at least `text.size() + 1` iterations. -/
theorem horspool_fuel_spec (T P : List Char) (hne : P ≠ []) (hT : T.length ≤ max_size)
    (hP : P.length ≤ max_size) (f : Nat) (hf : T.length ≤ f) :
    ∃ b, horspool_loop T P (findShiftTable P) P.length (f + 1) (size_sub P.length 1)
        = Result.value b ∧ (b = true ↔ ∃ s, OccursAt T P s) := by
  have hpos : 0 < P.length := List.length_pos.2 hne
  have hP2 : P.length < 2 ^ 63 := by unfold max_size at hP; omega
  rw [size_sub_of_le hpos (by omega)]
  exact horspool_loop_spec T P hne hT hP f (P.length - 1) le_rfl (by omega)
    (fun s _ => by omega)

theorem horspool_spec (T P : List Char) (hne : P ≠ []) (hT : T.length ≤ max_size)
    (hP : P.length ≤ max_size) :
    ∃ b, horspool T P = Result.value b ∧ (b = true ↔ ∃ s, OccursAt T P s) :=
  horspool_fuel_spec T P hne hT hP T.length le_rfl

/-- With an empty pattern the cursor starts at `2 ^ 64 - 1` and the loop is
not entered, whatever the budget. -/
theorem horspool_loop_nil (T : List Char) (tbl : unordered_map) (hT : T.length ≤ max_size)
    (f : Nat) :
    horspool_loop T [] tbl 0 (f + 1) (size_sub 0 1) = Result.value false := by
  have hT2 : T.length < 2 ^ 63 := by unfold max_size at hT; omega
  rw [horspool_loop, size_sub_zero_one, if_neg (by omega)]

/-- With a pattern longer than the text the loop is not entered, whatever the
budget. -/
theorem horspool_loop_long (T P : List Char) (tbl : unordered_map) (hP : P.length ≤ max_size)
    (hlong : T.length < P.length) (f : Nat) :
    horspool_loop T P tbl P.length (f + 1) (size_sub P.length 1) = Result.value false := by
  have hP2 : P.length < 2 ^ 63 := by unfold max_size at hP; omega
  rw [horspool_loop, size_sub_of_le (by omega) (by omega), if_neg (by omega)]

/-- The budget of `horspool` covers every run: a larger one gives the same
result. -/
theorem horspool_loop_fuel (T P : List Char) (hT : T.length ≤ max_size)
    (hP : P.length ≤ max_size) (f : Nat) (hf : T.length ≤ f) :
    horspool_loop T P (findShiftTable P) P.length (f + 1) (size_sub P.length 1)
      = horspool T P := by
  by_cases hne : P = []
  · subst hne
    unfold horspool
    simp only [List.length_nil]
    rw [horspool_loop_nil T _ hT f, horspool_loop_nil T _ hT T.length]
  · obtain ⟨b, hb1, hb2⟩ := horspool_fuel_spec T P hne hT hP f hf
    obtain ⟨b2, hc1, hc2⟩ := horspool_spec T P hne hT hP
    rw [hb1, hc1]
    have : b = b2 := by
      cases b <;> cases b2 <;> simp_all
    rw [this]

end strings.horspool

/-! ## The loop of `brute_force` -/

namespace string_search

open std

/-- Over the indices `a, ..., a + k - 1`, none of which is past the end of
the text and none of which starts a matching window, the loop falls through
to `return -1`. -/
theorem brute_force_loop_none (T P : List Char) :
    ∀ (k a : Nat), a + k ≤ T.length + 1 →
      (∀ i, a ≤ i → i < a + k → (T.drop i).take P.length ≠ P) →
      brute_force_loop T P P.length (List.range' a k) = Result.value (-1) := by
  intro k
  induction k with
  | zero => intro a _ _; rfl
  | succ k ih =>
    intro a hlen hno
    have hsub : substr T a P.length = some ((T.drop a).take P.length) := by
      unfold substr
      rw [if_neg (by omega)]
    rw [List.range'_succ, brute_force_loop, hsub]
    simp only [hno a le_rfl (by omega), if_false]
    exact ih (a + 1) (by omega) (fun i h1 h2 => hno i (by omega) (by omega))

/-- Over the indices `a, ..., a + k - 1`, the loop returns the first index
whose window matches, converted to `int`. -/
theorem brute_force_loop_first (T P : List Char) :
    ∀ (k a i : Nat), a + k ≤ T.length + 1 → a ≤ i → i < a + k →
      (T.drop i).take P.length = P →
      (∀ j, a ≤ j → j < i → (T.drop j).take P.length ≠ P) →
      brute_force_loop T P P.length (List.range' a k) = Result.value (to_int i) := by
  intro k
  induction k with
  | zero => intro a i _ h1 h2; omega
  | succ k ih =>
    intro a i hlen hai hik hmatch hno
    have hsub : substr T a P.length = some ((T.drop a).take P.length) := by
      unfold substr
      rw [if_neg (by omega)]
    rw [List.range'_succ, brute_force_loop, hsub]
    by_cases hia : i = a
    · subst hia
      simp only [hmatch, if_true]
    · simp only [hno a le_rfl (by omega), if_false]
      exact ih (a + 1) i (by omega) (by omega) (by omega) hmatch
        (fun j h1 h2 => hno j (by omega) h2)

/-- The loop bound `text_length - pattern_length + 1` does not wrap. -/
theorem brute_force_bound (T P : List Char) (hT : T.length ≤ max_size)
    (hmn : P.length ≤ T.length) :
    size_add (size_sub T.length P.length) 1 = T.length - P.length + 1 := by
  have hT2 : T.length < 2 ^ 63 := by unfold max_size at hT; omega
  rw [size_sub_of_le hmn (by omega), size_add_of_lt (by omega)]

/-- When the pattern occurs, `brute_force` returns its leftmost index,
converted to `int`. -/
theorem brute_force_found (T P : List Char) (hT : T.length ≤ max_size) (i : Nat)
    (hi : OccursAt T P i) (hfirst : ∀ j, j < i → ¬ OccursAt T P j) :
    brute_force T P = Result.value (to_int i) := by
  have hmn : P.length ≤ T.length := by have := hi.1; omega
  unfold brute_force
  simp only [if_pos hmn, brute_force_bound T P hT hmn, List.range_eq_range']
  have h1 := hi.1
  refine brute_force_loop_first T P _ 0 i (by omega) (Nat.zero_le _) (by omega) hi.2 ?_
  intro j _ hji hw
  exact hfirst j hji ⟨by omega, hw⟩

/-- When the pattern does not occur, `brute_force` returns -1. -/
theorem brute_force_not_found (T P : List Char) (hT : T.length ≤ max_size)
    (hno : ∀ i, ¬ OccursAt T P i) : brute_force T P = Result.value (-1) := by
  unfold brute_force
  by_cases hmn : P.length ≤ T.length
  · simp only [if_pos hmn, brute_force_bound T P hT hmn, List.range_eq_range']
    refine brute_force_loop_none T P _ 0 (by omega) ?_
    intro i _ hi hw
    exact hno i ⟨by omega, hw⟩
  · simp only [if_neg hmn]

/-- An index below `2 ^ 31` is unchanged by the conversion to `int`. -/
theorem to_int_of_lt {i : Nat} (hi : i < 2 ^ 31) : to_int i = (i : Int) := by
  unfold to_int
  have h : i % 2 ^ 32 = i := Nat.mod_eq_of_lt (by omega)
  rw [h, if_pos hi]

/-- The conversion to `int` of an index of a text is -1 only at the indices
that are `2 ^ 32 - 1` modulo `2 ^ 32`. -/
theorem to_int_eq_neg_one_iff (i : Nat) : to_int i = -1 ↔ i % 2 ^ 32 = 2 ^ 32 - 1 := by
  unfold to_int
  have hr : i % 2 ^ 32 < 2 ^ 32 := Nat.mod_lt _ (by norm_num)
  generalize i % 2 ^ 32 = r at hr
  norm_num at hr ⊢
  split_ifs with h
  · constructor
    · intro h1; contradiction
    · intro h1; omega
  · constructor
    · intro h1; omega
    · intro h1; subst h1; norm_num

end string_search

/-! ## Texts of the form `aa...ab` -/

theorem drop_replicate_append (k i : Nat) (a b : Char) (hi : i ≤ k) :
    (List.replicate k a ++ [b]).drop i = List.replicate (k - i) a ++ [b] := by
  rw [List.drop_append_of_le_length (by simp [hi]), List.drop_replicate]

theorem occursAt_replicate_last (k : Nat) (a b : Char) :
    OccursAt (List.replicate k a ++ [b]) [b] k := by
  refine ⟨by simp, ?_⟩
  rw [drop_replicate_append k k a b le_rfl]
  simp

theorem not_occursAt_replicate (k j : Nat) (a b : Char) (hab : a ≠ b) (hj : j < k) :
    ¬ OccursAt (List.replicate k a ++ [b]) [b] j := by
  rintro ⟨_, h⟩
  rw [drop_replicate_append k j a b (by omega)] at h
  obtain ⟨d, hd⟩ : ∃ d, k - j = d + 1 := ⟨k - j - 1, by omega⟩
  rw [hd, List.replicate_succ] at h
  simp at h
  exact hab h

theorem length_replicate_append (k : Nat) (a b : Char) :
    (List.replicate k a ++ [b]).length = k + 1 := by
  rw [List.length_append, List.length_replicate, List.length_singleton]

/-- On the text `aa...ab` with `k` leading `a`, `brute_force` returns the
index `k` of the pattern `b`, converted to `int`. -/
theorem brute_force_replicate (k : Nat) (a b : Char) (hab : a ≠ b) (hk : k + 1 ≤ std.max_size) :
    string_search.brute_force (List.replicate k a ++ [b]) [b]
      = std.Result.value (std.to_int k) :=
  string_search.brute_force_found (List.replicate k a ++ [b]) [b]
    (by rw [length_replicate_append]; exact hk) k (occursAt_replicate_last k a b)
    (fun j hj => not_occursAt_replicate k j a b hab hj)

/-- On the text `aa...ab`, `horspool` finds the pattern `b`. -/
theorem horspool_replicate (k : Nat) (a b : Char) (hk : k + 1 ≤ std.max_size) :
    strings.horspool.horspool (List.replicate k a ++ [b]) [b] = std.Result.value true := by
  obtain ⟨r, hr1, hr2⟩ := strings.horspool.horspool_spec (List.replicate k a ++ [b]) [b]
    (List.cons_ne_nil _ _) (by rw [length_replicate_append]; exact hk)
    (by rw [List.length_singleton]; unfold std.max_size; norm_num)
  have hr : r = true := hr2.2 ⟨k, occursAt_replicate_last k a b⟩
  rw [hr1, hr]

/-! ## The test cases of the source -/

/-- The assertions of `test()` in `horspool.cpp`. -/
theorem horspool_test :
    strings.horspool.horspool "Hello World".toList "World".toList = std.Result.value true
      ∧ strings.horspool.horspool "Hello World".toList " World".toList = std.Result.value true
      ∧ strings.horspool.horspool "Hello World".toList "ello".toList = std.Result.value true
      ∧ strings.horspool.horspool "Hello World".toList "rld".toList = std.Result.value true
      ∧ strings.horspool.horspool "Hello".toList "Helo".toList = std.Result.value false
      ∧ strings.horspool.horspool "c++_algorithms".toList "c++_algorithms".toList
          = std.Result.value true
      ∧ strings.horspool.horspool "c++_algorithms".toList "c++_".toList = std.Result.value true
      ∧ strings.horspool.horspool "Hello".toList "Hello World".toList = std.Result.value false
      ∧ strings.horspool.horspool "c++_algorithms".toList "".toList = std.Result.value false
      ∧ strings.horspool.horspool "c++".toList "c".toList = std.Result.value true
      ∧ strings.horspool.horspool "3458934793".toList "4793".toList = std.Result.value true
      ∧ strings.horspool.horspool "3458934793".toList "123".toList = std.Result.value false := by
  decide

/-- The cases of `test_set` in `brute_force_string_searching.cpp`. -/
theorem brute_force_test :
    string_search.brute_force "a".toList "aa".toList = std.Result.value (-1)
      ∧ string_search.brute_force "a".toList "a".toList = std.Result.value 0
      ∧ string_search.brute_force "ba".toList "b".toList = std.Result.value 0
      ∧ string_search.brute_force "bba".toList "bb".toList = std.Result.value 0
      ∧ string_search.brute_force "bbca".toList "c".toList = std.Result.value 2
      ∧ string_search.brute_force "ab".toList "b".toList = std.Result.value 1 := by
  decide

/-! ## Texts whose indices fit in `int` -/

/-- On a text of at most `2 ^ 31` characters `brute_force` returns the
leftmost index of the pattern, unchanged by the conversion to `int`. -/
theorem brute_force_found_small (T P : List Char) (hT : T.length ≤ 2 ^ 31) (i : Nat)
    (hi : OccursAt T P i) (hfirst : ∀ j, j < i → ¬ OccursAt T P j) (hi2 : i < 2 ^ 31) :
    string_search.brute_force T P = std.Result.value (i : Int) := by
  rw [string_search.brute_force_found T P (by unfold std.max_size; omega) i hi hfirst,
    string_search.to_int_of_lt hi2]

/-- On a text of fewer than `2 ^ 32` characters the two matchers agree on a
non-empty pattern: no index of such a text is narrowed to -1. -/
theorem matchers_agree_small (T P : List Char) (hT : T.length < 2 ^ 32)
    (hP : P.length ≤ std.max_size) (hne : P ≠ []) :
    strings.horspool.horspool T P = std.Result.value true
      ↔ string_search.brute_force T P ≠ std.Result.value (-1) := by
  have hpos : 0 < P.length := List.length_pos.2 hne
  have hT2 : T.length ≤ std.max_size := by unfold std.max_size; omega
  obtain ⟨b, hb1, hb2⟩ := strings.horspool.horspool_spec T P hne hT2 hP
  by_cases hex : ∃ i, OccursAt T P i
  · have hb : b = true := hb2.2 hex
    have hfound := string_search.brute_force_found T P hT2 (Nat.find hex) (Nat.find_spec hex)
      (fun j hj => Nat.find_min hex hj)
    have hlt : Nat.find hex + P.length ≤ T.length := (Nat.find_spec hex).1
    have hmod : Nat.find hex % 2 ^ 32 = Nat.find hex := Nat.mod_eq_of_lt (by omega)
    have hne1 : std.to_int (Nat.find hex) ≠ -1 := by
      rw [Ne, string_search.to_int_eq_neg_one_iff, hmod]
      omega
    rw [hb1, hb, hfound]
    refine ⟨fun _ h => hne1 (std.Result.value.inj h), fun _ => rfl⟩
  · have hb : b = false := by
      cases b with
      | false => rfl
      | true => exact absurd (hb2.1 rfl) hex
    have hnf := string_search.brute_force_not_found T P hT2 (fun i hi => hex ⟨i, hi⟩)
    rw [hb1, hb, hnf]
    refine ⟨fun h => (by cases h), fun h => absurd rfl h⟩

/-! ## The iterations of the scan loop -/

namespace strings.horspool

open std

/-- The instrumented loop computes the result of `horspool_loop`. -/
theorem horspool_trace_fst (T P : List Char) (tbl : unordered_map) (m : Nat) :
    ∀ (fuel i : Nat), (horspool_trace T P tbl m fuel i).1 = horspool_loop T P tbl m fuel i := by
  intro fuel
  induction fuel with
  | zero => intro i; rfl
  | succ fuel ih =>
    intro i
    rw [horspool_trace, horspool_loop]
    by_cases hlt : i < T.length
    · rw [if_pos hlt, if_pos hlt]
      cases hsub : substr T (size_add (size_sub i m) 1) m with
      | none => rfl
      | some w =>
        by_cases hw : w = P
        · simp only [hw, if_true]
        · simp only [hw, if_false]
          exact ih _
    · rw [if_neg hlt, if_neg hlt]

/-- Once the loop condition fails no iteration is run. -/
theorem horspool_trace_exit (T P : List Char) (tbl : unordered_map) (m f i : Nat)
    (hge : ¬ i < T.length) :
    horspool_trace T P tbl m (f + 1) i = (Result.value false, []) := by
  rw [horspool_trace, if_neg hge]

/-- The window read in an iteration at a cursor `i` with
`prototype_size - 1 ≤ i < text.size()`: its start does not wrap and it has
`prototype_size` characters, all inside the text. -/
theorem window_in_text (T P : List Char) (hne : P ≠ []) (hT : T.length ≤ max_size)
    (i : Nat) (hi : P.length - 1 ≤ i) (hlt : i < T.length) :
    size_add (size_sub i P.length) 1 = i + 1 - P.length
      ∧ substr T (size_add (size_sub i P.length) 1) P.length
          = some ((T.drop (i + 1 - P.length)).take P.length)
      ∧ ((T.drop (i + 1 - P.length)).take P.length).length = P.length := by
  have hpos : 0 < P.length := List.length_pos.2 hne
  have hT2 : T.length < 2 ^ 63 := by unfold max_size at hT; omega
  have hstart := window_start i P.length hpos hi (by omega) (by omega)
  refine ⟨hstart, ?_, ?_⟩
  · rw [hstart]
    unfold substr
    rw [if_neg (by omega)]
  · rw [List.length_take, List.length_drop]
    omega

/-- One iteration of the scan on a non-empty pattern, at a cursor `i` with
`prototype_size - 1 ≤ i < text.size()`. -/
theorem horspool_trace_step (T P : List Char) (hne : P ≠ []) (hT : T.length ≤ max_size)
    (hP : P.length ≤ max_size) (f i : Nat) (hi : P.length - 1 ≤ i) (hlt : i < T.length) :
    horspool_trace T P (findShiftTable P) P.length (f + 1) i =
      if (T.drop (i + 1 - P.length)).take P.length = P then (Result.value true, [i])
      else
        ((horspool_trace T P (findShiftTable P) P.length f
            (i + shift T (findShiftTable P) P.length i)).1,
          i :: (horspool_trace T P (findShiftTable P) P.length f
            (i + shift T (findShiftTable P) P.length i)).2) := by
  have hT2 : T.length < 2 ^ 63 := by unfold max_size at hT; omega
  have hP2 : P.length < 2 ^ 63 := by unfold max_size at hP; omega
  have hsb := shift_bounds T P hne hP i
  have hadd : size_add i (shift T (findShiftTable P) P.length i)
      = i + shift T (findShiftTable P) P.length i := size_add_of_lt (by omega)
  obtain ⟨_, hsub, _⟩ := window_in_text T P hne hT i hi hlt
  rw [horspool_trace, if_pos hlt, hsub]
  simp only [hadd]

/-- Every iteration of the scan on a non-empty pattern is at a cursor `c`
with `prototype_size - 1 ≤ c < text.size()`. -/
theorem horspool_trace_mem (T P : List Char) (hne : P ≠ []) (hT : T.length ≤ max_size)
    (hP : P.length ≤ max_size) :
    ∀ (f i : Nat), P.length - 1 ≤ i →
      ∀ c, c ∈ (horspool_trace T P (findShiftTable P) P.length f i).2 →
        P.length - 1 ≤ c ∧ c < T.length := by
  intro f
  induction f with
  | zero => intro i _ c hc; simp [horspool_trace] at hc
  | succ f ih =>
    intro i hi c hc
    by_cases hlt : i < T.length
    · rw [horspool_trace_step T P hne hT hP f i hi hlt] at hc
      by_cases hw : (T.drop (i + 1 - P.length)).take P.length = P
      · simp only [hw, if_true, List.mem_singleton] at hc
        subst hc
        exact ⟨hi, hlt⟩
      · simp only [hw, if_false, List.mem_cons] at hc
        rcases hc with hc | hc
        · subst hc
          exact ⟨hi, hlt⟩
        · exact ih _ (by omega) c hc
    · rw [horspool_trace_exit T P _ _ f i hlt] at hc
      simp at hc

/-- The scan on a non-empty pattern runs at most `text.size() - i` iterations
from the cursor `i`. -/
theorem horspool_trace_length (T P : List Char) (hne : P ≠ []) (hT : T.length ≤ max_size)
    (hP : P.length ≤ max_size) :
    ∀ (f i : Nat), P.length - 1 ≤ i →
      (horspool_trace T P (findShiftTable P) P.length f i).2.length ≤ T.length - i := by
  intro f
  induction f with
  | zero => intro i _; simp [horspool_trace]
  | succ f ih =>
    intro i hi
    by_cases hlt : i < T.length
    · rw [horspool_trace_step T P hne hT hP f i hi hlt]
      have hsb := shift_bounds T P hne hP i
      by_cases hw : (T.drop (i + 1 - P.length)).take P.length = P
      · simp only [hw, if_true, List.length_singleton]
        omega
      · simp only [hw, if_false, List.length_cons]
        have := ih (i + shift T (findShiftTable P) P.length i) (by omega)
        omega
    · rw [horspool_trace_exit T P _ _ f i hlt]
      simp

/-- The scan of `horspool` on a non-empty pattern returns a value within
`text.size() - prototype_size + 1` iterations and the closing test of the loop
condition. -/
theorem horspool_fuel_sharp (T P : List Char) (hne : P ≠ []) (hT : T.length ≤ max_size)
    (hP : P.length ≤ max_size) (f : Nat) (hf : T.length + 1 - P.length ≤ f) :
    horspool_loop T P (findShiftTable P) P.length (f + 1) (size_sub P.length 1)
      = horspool T P := by
  have hpos : 0 < P.length := List.length_pos.2 hne
  have hP2 : P.length < 2 ^ 63 := by unfold max_size at hP; omega
  obtain ⟨b, hb1, hb2⟩ := horspool_loop_spec T P hne hT hP f (P.length - 1) le_rfl (by omega)
    (fun s _ => by omega)
  obtain ⟨b2, hc1, hc2⟩ := horspool_spec T P hne hT hP
  rw [size_sub_of_le hpos (by omega), hb1, hc1]
  have : b = b2 := by
    cases b <;> cases b2 <;> simp_all
  rw [this]

end strings.horspool

/-! ## The claims -/

open std string_search strings.horspool

/-- Claim C1. For every text `T` and every non-empty pattern `P`,
`horspool(T, P)` returns `true` if and only if there is an index `i` with
`i + |P| ≤ |T|` such that the substring of `T` at `[i, i + |P|)` equals `P`;
otherwise it returns `false`. -/
theorem horspool_true_iff_occurs (T P : List Char) (hT : T.length ≤ max_size)
    (hP : P.length ≤ max_size) (hne : P ≠ []) :
    (horspool T P = Result.value true ↔ ∃ i, OccursAt T P i)
      ∧ (horspool T P = Result.value false ↔ ¬ ∃ i, OccursAt T P i) := by
  obtain ⟨b, hb1, hb2⟩ := horspool_spec T P hne hT hP
  rw [hb1]
  cases b with
  | true =>
    have hex : ∃ i, OccursAt T P i := hb2.1 rfl
    exact ⟨⟨fun _ => hex, fun _ => rfl⟩, ⟨fun h => (by cases h), fun h => absurd hex h⟩⟩
  | false =>
    have hno : ¬ ∃ i, OccursAt T P i := fun h => by cases hb2.2 h
    exact ⟨⟨fun h => (by cases h), fun h => absurd h hno⟩, ⟨fun _ => hno, fun _ => rfl⟩⟩

theorem horspool_true_iff_occurs_witness :
    ['H', 'e', 'l', 'l', 'o', ' ', 'W', 'o', 'r', 'l', 'd'].length ≤ max_size
      ∧ ['W', 'o', 'r', 'l', 'd'].length ≤ max_size
      ∧ ['W', 'o', 'r', 'l', 'd'] ≠ []
      ∧ (horspool ['H', 'e', 'l', 'l', 'o', ' ', 'W', 'o', 'r', 'l', 'd']
            ['W', 'o', 'r', 'l', 'd'] = Result.value true
          ↔ ∃ i, OccursAt ['H', 'e', 'l', 'l', 'o', ' ', 'W', 'o', 'r', 'l', 'd']
            ['W', 'o', 'r', 'l', 'd'] i) :=
  ⟨by decide, by decide, by decide,
    (horspool_true_iff_occurs ['H', 'e', 'l', 'l', 'o', ' ', 'W', 'o', 'r', 'l', 'd']
      ['W', 'o', 'r', 'l', 'd'] (by decide) (by decide) (by decide)).1⟩

/-- Claim C2, at a text of `2 ^ 31 + 1` characters. The pattern `b` occurs in
`aa...ab` at index `2 ^ 31` and at no smaller index, and `brute_force` returns
`-2147483648`: the index is narrowed by the `int` return type. -/
theorem brute_force_index_narrowed :
    OccursAt (List.replicate (2 ^ 31) 'a' ++ ['b']) ['b'] (2 ^ 31)
      ∧ (∀ j, j < 2 ^ 31 → ¬ OccursAt (List.replicate (2 ^ 31) 'a' ++ ['b']) ['b'] j)
      ∧ brute_force (List.replicate (2 ^ 31) 'a' ++ ['b']) ['b']
          = Result.value (-2147483648) := by
  refine ⟨occursAt_replicate_last (2 ^ 31) 'a' 'b',
    fun j hj => not_occursAt_replicate (2 ^ 31) j 'a' 'b' (by decide) hj, ?_⟩
  rw [brute_force_replicate (2 ^ 31) 'a' 'b' (by decide) (by unfold max_size; norm_num)]
  unfold to_int
  norm_num

/-- Claim C3, at a text of `2 ^ 32` characters. On `aa...ab` with the `b` at
index `2 ^ 32 - 1` and the pattern `b`, `horspool` returns `true` and
`brute_force` returns `-1`: the two matchers disagree. -/
theorem matchers_disagree_at_narrowed_index :
    horspool (List.replicate (2 ^ 32 - 1) 'a' ++ ['b']) ['b'] = Result.value true
      ∧ brute_force (List.replicate (2 ^ 32 - 1) 'a' ++ ['b']) ['b']
          = Result.value (-1) := by
  refine ⟨horspool_replicate (2 ^ 32 - 1) 'a' 'b' (by unfold max_size; norm_num), ?_⟩
  rw [brute_force_replicate (2 ^ 32 - 1) 'a' 'b' (by decide) (by unfold max_size; norm_num)]
  unfold to_int
  norm_num

/-- Claim C4. For every text `T`, the empty text included, `horspool(T, "")`
returns `false`: with `size_t` arithmetic modulo `2 ^ 64` the cursor starts
at `2 ^ 64 - 1` and the scan loop is not entered. -/
theorem horspool_empty_pattern (T : List Char) (hT : T.length ≤ max_size) :
    horspool T [] = Result.value false := by
  unfold horspool
  exact horspool_loop_nil T _ hT T.length

theorem horspool_empty_pattern_witness :
    ([] : List Char).length ≤ max_size ∧ horspool [] [] = Result.value false :=
  ⟨by decide, horspool_empty_pattern [] (by decide)⟩

/-- Claim C5 fails on the text `ab`: `brute_force("ab", "")` does not return
the not-found sentinel -1. -/
theorem brute_force_nil_not_sentinel :
    ¬ (brute_force ['a', 'b'] [] = Result.value (-1)) := by
  decide

/-- Claim C5, amended. For every text `T`, `brute_force(T, "")` returns 0:
the empty pattern is reported as a match at index 0. -/
theorem brute_force_empty_pattern (T : List Char) (hT : T.length ≤ max_size) :
    brute_force T [] = Result.value 0 := by
  have h := brute_force_found T [] hT 0 ⟨by simp, by simp⟩ (fun j hj => by omega)
  rw [h]
  rfl

theorem brute_force_empty_pattern_witness :
    ['a', 'b'].length ≤ max_size ∧ brute_force ['a', 'b'] [] = Result.value 0 :=
  ⟨by decide, brute_force_empty_pattern ['a', 'b'] (by decide)⟩

/-- Claim C6. For every text `T` and pattern `P` with `|P| > |T|`,
`brute_force(T, P)` returns -1. -/
theorem brute_force_long_pattern (T P : List Char) (hlong : P.length > T.length) :
    brute_force T P = Result.value (-1) := by
  unfold brute_force
  simp only [if_neg (Nat.not_le.2 hlong)]

theorem brute_force_long_pattern_witness :
    ['a', 'a'].length > ['a'].length ∧ brute_force ['a'] ['a', 'a'] = Result.value (-1) :=
  ⟨by decide, brute_force_long_pattern ['a'] ['a', 'a'] (by decide)⟩

/-- Claim C7. For every text `T` and pattern `P` with `|P| > |T|`,
`horspool(T, P)` returns `false`. -/
theorem horspool_long_pattern (T P : List Char) (hP : P.length ≤ max_size)
    (hlong : P.length > T.length) : horspool T P = Result.value false := by
  unfold horspool
  exact horspool_loop_long T P _ hP hlong T.length

theorem horspool_long_pattern_witness :
    ['H', 'e', 'l', 'l', 'o', ' ', 'W'].length ≤ max_size
      ∧ ['H', 'e', 'l', 'l', 'o', ' ', 'W'].length > ['H', 'e', 'l', 'l', 'o'].length
      ∧ horspool ['H', 'e', 'l', 'l', 'o'] ['H', 'e', 'l', 'l', 'o', ' ', 'W']
          = Result.value false :=
  ⟨by decide, by decide,
    horspool_long_pattern ['H', 'e', 'l', 'l', 'o'] ['H', 'e', 'l', 'l', 'o', ' ', 'W']
      (by decide) (by decide)⟩

/-- Claim C8. For every non-empty pattern `P` of length `m` and every
character `c` that occurs in `P` at some index smaller than `m - 1`,
`findShiftTable(P)` maps `c` to `(m - 1) - j`, where `j` is the largest index
smaller than `m - 1` with `P[j] = c`; this includes a final character that
also occurs earlier. -/
theorem findShiftTable_last_occurrence (P : List Char) (hP : P.length ≤ max_size) (c : Char)
    (j : Nat) (hj : j < P.length - 1) (hc : P[j]? = some c)
    (hmax : ∀ j2, j < j2 → j2 < P.length - 1 → P[j2]? ≠ some c) :
    findShiftTable P c = some (P.length - 1 - j) := by
  have hne : P ≠ [] := by
    intro h; subst h; simp at hj
  refine findShiftTable_of_last P hne hP c j hj ((index_eq_iff (by omega) c).2 hc) ?_
  intro j2 h1 h2 h3
  exact hmax j2 h1 h2 ((index_eq_iff (by omega) c).1 h3)

theorem findShiftTable_last_occurrence_witness :
    ['a', 'b', 'c', 'a', 'b'].length ≤ max_size
      ∧ 1 < ['a', 'b', 'c', 'a', 'b'].length - 1
      ∧ ['a', 'b', 'c', 'a', 'b'][1]? = some 'b'
      ∧ (∀ j2, 1 < j2 → j2 < ['a', 'b', 'c', 'a', 'b'].length - 1 →
          ['a', 'b', 'c', 'a', 'b'][j2]? ≠ some 'b')
      ∧ findShiftTable ['a', 'b', 'c', 'a', 'b'] 'b' = some (5 - 1 - 1) := by
  have hmax : ∀ j2, 1 < j2 → j2 < ['a', 'b', 'c', 'a', 'b'].length - 1 →
      ['a', 'b', 'c', 'a', 'b'][j2]? ≠ some 'b' := by
    intro j2 h1 h2
    have h3 : j2 < 4 := h2
    interval_cases j2 <;> decide
  exact ⟨by decide, by decide, by decide, hmax,
    findShiftTable_last_occurrence ['a', 'b', 'c', 'a', 'b'] (by decide) 'b' 1 (by decide)
      (by decide) hmax⟩

/-- Claim C9. For every non-empty pattern `P` of length `m` whose final
character does not occur at any earlier index of `P`, `findShiftTable(P)` maps
that final character to `m`. -/
theorem findShiftTable_final_character (P : List Char) (hP : P.length ≤ max_size) (c : Char)
    (hc : P[P.length - 1]? = some c)
    (hfresh : ∀ j, j < P.length - 1 → P[j]? ≠ some c) :
    findShiftTable P c = some P.length := by
  have hne : P ≠ [] := by
    intro h; subst h; simp at hc
  have hpos : 0 < P.length := List.length_pos.2 hne
  have hidx : index P (P.length - 1) = c := (index_eq_iff (by omega) c).2 hc
  rw [← hidx]
  refine findShiftTable_of_final P hne hP ?_
  intro j hj h
  rw [hidx] at h
  exact hfresh j hj ((index_eq_iff (by omega) c).1 h)

theorem findShiftTable_final_character_witness :
    ['a', 'b', 'a', 'c'].length ≤ max_size
      ∧ ['a', 'b', 'a', 'c'][['a', 'b', 'a', 'c'].length - 1]? = some 'c'
      ∧ (∀ j, j < ['a', 'b', 'a', 'c'].length - 1 → ['a', 'b', 'a', 'c'][j]? ≠ some 'c')
      ∧ findShiftTable ['a', 'b', 'a', 'c'] 'c' = some 4 := by
  have hfresh : ∀ j, j < ['a', 'b', 'a', 'c'].length - 1 →
      ['a', 'b', 'a', 'c'][j]? ≠ some 'c' := by
    intro j hj
    have h3 : j < 3 := hj
    interval_cases j <;> decide
  exact ⟨by decide, by decide, hfresh,
    findShiftTable_final_character ['a', 'b', 'a', 'c'] (by decide) 'c' (by decide) hfresh⟩

/-- Claim C10. For every pattern `P`, a character is a key of
`findShiftTable(P)` if and only if it occurs in `P`; in particular
`findShiftTable("")` is the empty table: with `size() - 1` taken modulo
`2 ^ 64` the construction loop runs zero times. -/
theorem findShiftTable_keys (P : List Char) (hP : P.length ≤ max_size) :
    (∀ c, (findShiftTable P).count c ≠ 0 ↔ c ∈ P)
      ∧ findShiftTable [] = unordered_map.empty := by
  refine ⟨fun c => ?_, findShiftTable_nil_eq⟩
  by_cases hne : P = []
  · subst hne
    rw [findShiftTable_nil_eq]
    simp [unordered_map.count, unordered_map.empty]
  · rw [← findShiftTable_isSome_iff P hne hP c]
    unfold unordered_map.count
    cases findShiftTable P c <;> simp

theorem findShiftTable_keys_witness :
    ['a', 'b', 'a', 'c'].length ≤ max_size
      ∧ (∀ c, (findShiftTable ['a', 'b', 'a', 'c']).count c ≠ 0 ↔ c ∈ ['a', 'b', 'a', 'c'])
      ∧ findShiftTable [] = unordered_map.empty :=
  ⟨by decide, findShiftTable_keys ['a', 'b', 'a', 'c'] (by decide)⟩

/-- Claim C11. For every non-empty pattern `P` of length `m`, every value
stored in `findShiftTable(P)` is a positive shift: it is at least 1 and at
most `m`; no entry is 0, even when the final character repeats an earlier
one. -/
theorem findShiftTable_values_positive (P : List Char) (hne : P ≠ [])
    (hP : P.length ≤ max_size) (c : Char) (v : Nat) (hv : findShiftTable P c = some v) :
    1 ≤ v ∧ v ≤ P.length :=
  findShiftTable_bounds P hne hP c v hv

theorem findShiftTable_values_positive_witness :
    ['a', 'b', 'a', 'b'] ≠ []
      ∧ ['a', 'b', 'a', 'b'].length ≤ max_size
      ∧ findShiftTable ['a', 'b', 'a', 'b'] 'b' = some 2
      ∧ (1 ≤ 2 ∧ 2 ≤ ['a', 'b', 'a', 'b'].length) :=
  ⟨by decide, by decide, by decide,
    findShiftTable_values_positive ['a', 'b', 'a', 'b'] (by decide) (by decide) 'b' 2
      (by decide)⟩

/-- Claim C12. The shift taken by the Horspool scan never skips an
occurrence: for every text `T`, non-empty pattern `P` of length `m` and cursor
`i` with `m - 1 ≤ i < |T|`, if `s` is the shift applied at `i` (the table
entry of `T[i]` when `T[i]` is a key, otherwise `m`), then no occurrence of
`P` in `T` ends at an index `j` with `i < j < i + s`; an occurrence that ends
at `j` starts at `j + 1 - m`. -/
theorem shift_skips_no_occurrence (T P : List Char) (hne : P ≠ [])
    (hP : P.length ≤ max_size) (i : Nat) (_hlo : P.length - 1 ≤ i) (_hhi : i < T.length)
    (j : Nat) (hij : i < j) (hjs : j < i + shift T (findShiftTable P) P.length i) :
    shift T (findShiftTable P) P.length i
        = (match findShiftTable P (index T i) with
          | some v => v
          | none => P.length)
      ∧ ¬ OccursAt T P (j + 1 - P.length) := by
  constructor
  · unfold shift unordered_map.count unordered_map.get
    cases findShiftTable P (index T i) <;> simp
  · intro hocc
    have hpos : 0 < P.length := List.length_pos.2 hne
    have h := shift_safe T P hne hP i (j + 1 - P.length) hocc (by omega)
    omega

theorem shift_skips_no_occurrence_witness :
    ['a', 'b', 'c'] ≠ []
      ∧ ['a', 'b', 'c'].length ≤ max_size
      ∧ ['a', 'b', 'c'].length - 1 ≤ 2
      ∧ 2 < ['x', 'y', 'z', 'a', 'b', 'c'].length
      ∧ 2 < 4
      ∧ 4 < 2 + shift ['x', 'y', 'z', 'a', 'b', 'c'] (findShiftTable ['a', 'b', 'c'])
          ['a', 'b', 'c'].length 2
      ∧ ¬ OccursAt ['x', 'y', 'z', 'a', 'b', 'c'] ['a', 'b', 'c'] (4 + 1 - ['a', 'b', 'c'].length) :=
  ⟨by decide, by decide, by decide, by decide, by decide, by decide,
    (shift_skips_no_occurrence ['x', 'y', 'z', 'a', 'b', 'c'] ['a', 'b', 'c'] (by decide)
      (by decide) 2 (by decide) (by decide) 4 (by decide) (by decide)).2⟩

/-- Claim C13. In every iteration of the Horspool scan loop on a non-empty
pattern of length `m`, the cursor `i` satisfies `m - 1 ≤ i < |T|`, the window
start `i - m + 1` computed modulo `2 ^ 64` does not underflow, and
`text.substr(i - m + 1, m)` does not throw and has exactly `m` characters,
which lie inside the text. -/
theorem horspool_iteration_in_bounds (T P : List Char) (hne : P ≠ [])
    (hT : T.length ≤ max_size) (hP : P.length ≤ max_size) (fuel i : Nat)
    (hi : i ∈ (horspool_trace T P (findShiftTable P) P.length fuel
      (size_sub P.length 1)).2) :
    (P.length - 1 ≤ i ∧ i < T.length)
      ∧ size_add (size_sub i P.length) 1 + P.length = i + 1
      ∧ size_add (size_sub i P.length) 1 + P.length ≤ T.length
      ∧ ∃ w, substr T (size_add (size_sub i P.length) 1) P.length = some w
          ∧ w.length = P.length := by
  have hpos : 0 < P.length := List.length_pos.2 hne
  have hP2 : P.length < 2 ^ 63 := by unfold max_size at hP; omega
  rw [size_sub_of_le hpos (by omega)] at hi
  obtain ⟨hlo, hhi⟩ := horspool_trace_mem T P hne hT hP fuel (P.length - 1) le_rfl i hi
  obtain ⟨hstart, hsub, hlen⟩ := window_in_text T P hne hT i hlo hhi
  refine ⟨⟨hlo, hhi⟩, ?_, ?_, _, hsub, hlen⟩
  · rw [hstart]; omega
  · rw [hstart]; omega

theorem horspool_iteration_in_bounds_witness :
    ['H', 'e', 'l', 'o'] ≠ []
      ∧ ['H', 'e', 'l', 'l', 'o'].length ≤ max_size
      ∧ ['H', 'e', 'l', 'o'].length ≤ max_size
      ∧ 4 ∈ (horspool_trace ['H', 'e', 'l', 'l', 'o'] ['H', 'e', 'l', 'o']
          (findShiftTable ['H', 'e', 'l', 'o']) ['H', 'e', 'l', 'o'].length 6
          (size_sub ['H', 'e', 'l', 'o'].length 1)).2
      ∧ (['H', 'e', 'l', 'o'].length - 1 ≤ 4 ∧ 4 < ['H', 'e', 'l', 'l', 'o'].length) :=
  ⟨by decide, by decide, by decide, by decide,
    (horspool_iteration_in_bounds ['H', 'e', 'l', 'l', 'o'] ['H', 'e', 'l', 'o'] (by decide)
      (by decide) (by decide) 6 4 (by decide)).1⟩

/-- Claim C14. `horspool` terminates on every text `T` and pattern `P`: with
a budget of `|T| - |P| + 1` iterations and the closing test of the loop
condition the scan returns a value, the result of `horspool`; each iteration
applies a shift of at least 1 and strictly increases the cursor; the loop
runs at most `|T| - |P| + 1` iterations (none when `|P| > |T|`), and zero
iterations for an empty pattern. -/
theorem horspool_terminates (T P : List Char) (hT : T.length ≤ max_size)
    (hP : P.length ≤ max_size) (f : Nat) (hf : T.length + 1 - P.length ≤ f) :
    (∃ b, horspool_loop T P (findShiftTable P) P.length (f + 1) (size_sub P.length 1)
          = Result.value b ∧ horspool T P = Result.value b)
      ∧ (∀ i, i ∈ (horspool_trace T P (findShiftTable P) P.length (f + 1)
            (size_sub P.length 1)).2 →
          1 ≤ shift T (findShiftTable P) P.length i
            ∧ i < size_add i (shift T (findShiftTable P) P.length i))
      ∧ (horspool_trace T P (findShiftTable P) P.length (f + 1)
            (size_sub P.length 1)).2.length ≤ T.length + 1 - P.length
      ∧ (P = [] → (horspool_trace T P (findShiftTable P) P.length (f + 1)
            (size_sub P.length 1)).2 = []) := by
  have hT2 : T.length < 2 ^ 63 := by unfold max_size at hT; omega
  have hP2 : P.length < 2 ^ 63 := by unfold max_size at hP; omega
  by_cases hne : P = []
  · subst hne
    have hexit : horspool_trace T [] (findShiftTable []) 0 (f + 1) (size_sub 0 1)
        = (Result.value false, []) :=
      horspool_trace_exit T [] _ 0 f _ (by rw [size_sub_zero_one]; omega)
    simp only [List.length_nil, hexit]
    refine ⟨⟨false, horspool_loop_nil T _ hT f, ?_⟩, ?_, ?_, ?_⟩
    · unfold horspool
      exact horspool_loop_nil T _ hT T.length
    · intro i hi
      simp at hi
    · simp
    · simp
  · have hpos : 0 < P.length := List.length_pos.2 hne
    have hstart : size_sub P.length 1 = P.length - 1 := size_sub_of_le hpos (by omega)
    obtain ⟨b, hb1, _⟩ := horspool_spec T P hne hT hP
    refine ⟨⟨b, ?_, hb1⟩, ?_, ?_, fun h => absurd h hne⟩
    · rw [horspool_fuel_sharp T P hne hT hP f hf, hb1]
    · intro i hi
      rw [hstart] at hi
      obtain ⟨hlo, hhi⟩ := horspool_trace_mem T P hne hT hP (f + 1) (P.length - 1) le_rfl i hi
      have hsb := shift_bounds T P hne hP i
      rw [size_add_of_lt (by omega)]
      omega
    · rw [hstart]
      have := horspool_trace_length T P hne hT hP (f + 1) (P.length - 1) le_rfl
      omega

theorem horspool_terminates_witness :
    ['H', 'e', 'l', 'l', 'o'].length ≤ max_size
      ∧ ['H', 'e', 'l', 'o'].length ≤ max_size
      ∧ ['H', 'e', 'l', 'l', 'o'].length + 1 - ['H', 'e', 'l', 'o'].length ≤ 2
      ∧ (∃ b, horspool_loop ['H', 'e', 'l', 'l', 'o'] ['H', 'e', 'l', 'o']
            (findShiftTable ['H', 'e', 'l', 'o']) ['H', 'e', 'l', 'o'].length (2 + 1)
            (size_sub ['H', 'e', 'l', 'o'].length 1) = Result.value b
          ∧ horspool ['H', 'e', 'l', 'l', 'o'] ['H', 'e', 'l', 'o'] = Result.value b) :=
  ⟨by decide, by decide, by decide,
    (horspool_terminates ['H', 'e', 'l', 'l', 'o'] ['H', 'e', 'l', 'o'] (by decide)
      (by decide) 2 (by decide)).1⟩
